import Mathlib

/-!
Verification of the chunking / ingestion / query core of the yolo-rag-application
repository (python-service).  Python strings are shallowly embedded as lists of
characters, the SQLAlchemy session as an explicit staged/committed state pair,
and the embedding model as an abstract function parameter.
-/

/-- Python strings are modelled as lists of characters. -/
abbrev PyStr : Type := List Char

/-- Characters treated as whitespace by Python `str.strip()` (ASCII range). -/
def pyIsSpace (c : Char) : Bool :=
  c = ' ' || c = '\t' || c = '\n' || c = '\r' || c = '\x0b' || c = '\x0c'

/-- Model of Python `s.strip()`: drop whitespace from both ends. -/
def pyStrip (s : PyStr) : PyStr :=
  ((s.dropWhile pyIsSpace).reverse.dropWhile pyIsSpace).reverse

/-- Model of Python `s[a:b]` for `0 ≤ a ≤ b`. -/
def pySlice (s : PyStr) (a b : Nat) : PyStr :=
  (s.drop a).take (b - a)

/-- Model of Python `s[-k:]`.  Note Python's `s[-0:]` is `s[0:]`, i.e. the whole
string, not the empty string; for `k > 0` it is the last `min k (length s)`
characters. -/
def pySliceNegFrom (s : PyStr) (k : Nat) : PyStr :=
  if k = 0 then s else s.drop (s.length - k)

/-- One chunk record as produced by `pdf_utils.chunk_text` /
`pdf_utils.chunk_text_smart` (the dict with keys text, page_start, page_end,
chunk_index). -/
structure ChunkRec where
  text : PyStr
  page_start : Nat
  page_end : Nat
  chunk_index : Nat
deriving DecidableEq, Repr

/-- The start position for the next fixed window in `chunk_text`
(pdf_utils.py lines 105-110): `start = end - overlap`, overridden to
`start = end` when `overlap >= max_chars`. -/
def nextWinStart (start mc ov : Nat) : Nat :=
  if mc ≤ ov then start + mc else start + (mc - ov)

theorem lt_nextWinStart (start mc ov : Nat) (h : 0 < mc) :
    start < nextWinStart start mc ov := by
  unfold nextWinStart
  split <;> omega

/-- The `while start < len(page_text)` loop of `chunk_text`
(pdf_utils.py lines 89-110), for one oversized page.  The Python loop never
terminates when `max_chars = 0`; we totalise that (claim-irrelevant) case by
returning no chunks. -/
def chunkTextLoop (pt : PyStr) (mc ov pn start idx : Nat) : List ChunkRec × Nat :=
  if h : 0 < mc ∧ start < pt.length then
    let ct := pySlice pt start (start + mc)
    if pyStrip ct = [] then
      chunkTextLoop pt mc ov pn (nextWinStart start mc ov) idx
    else
      let r := chunkTextLoop pt mc ov pn (nextWinStart start mc ov) (idx + 1)
      (⟨pyStrip ct, pn, pn, idx⟩ :: r.1, r.2)
  else ([], idx)
termination_by pt.length - start
decreasing_by
  · have := lt_nextWinStart start mc ov h.1
    omega
  · have := lt_nextWinStart start mc ov h.1
    omega

/-- The page loop of `chunk_text` (pdf_utils.py lines 71-110): skip blank
pages, emit small pages as one chunk, window oversized pages. -/
def chunkTextPages (mc ov : Nat) : List PyStr → Nat → Nat → List ChunkRec × Nat
  | [], _, idx => ([], idx)
  | pt :: rest, pn, idx =>
    if pyStrip pt = [] then chunkTextPages mc ov rest (pn + 1) idx
    else if pt.length ≤ mc then
      let r := chunkTextPages mc ov rest (pn + 1) (idx + 1)
      (⟨pyStrip pt, pn, pn, idx⟩ :: r.1, r.2)
    else
      let p := chunkTextLoop pt mc ov pn 0 idx
      let r := chunkTextPages mc ov rest (pn + 1) p.2
      (p.1 ++ r.1, r.2)

/-- `pdf_utils.chunk_text`: fixed-window chunking with overlap. -/
def chunk_text (pages : List PyStr) (mc ov : Nat) : List ChunkRec :=
  (chunkTextPages mc ov pages 0 0).1

/-- Model of `page_text.replace('\n', ' ')`. -/
def newlineToSpace (s : PyStr) : PyStr :=
  s.map fun c => if c = '\n' then ' ' else c

/-- Model of Python `s.split('. ')`, returned as head segment plus the
remaining segments (so the result is always non-empty, as in Python). -/
def splitDotSpace : PyStr → PyStr × List PyStr
  | [] => ([], [])
  | '.' :: ' ' :: rest =>
    let r := splitDotSpace rest
    ([], r.1 :: r.2)
  | c :: rest =>
    let r := splitDotSpace rest
    (c :: r.1, r.2)

/-- The sentence list of `chunk_text_smart` (pdf_utils.py line 157):
`page_text.replace('\n', ' ').split('. ')`. -/
def pySentences (pt : PyStr) : List PyStr :=
  let r := splitDotSpace (newlineToSpace pt)
  r.1 :: r.2

/-- Per-sentence preprocessing of `chunk_text_smart` (pdf_utils.py lines
162-164): strip, and re-append a trailing period to non-empty segments that
lack one. -/
def procSeg (s : PyStr) : PyStr :=
  let t := pyStrip s
  if t ≠ [] ∧ t.getLast? ≠ some '.' then t ++ ['.'] else t

/-- One iteration of the sentence loop of `chunk_text_smart`
(pdf_utils.py lines 160-183).  Returns the emitted chunk (if the current
buffer was closed), the new buffer, and the next chunk index. -/
def smartStep (mc ov pn : Nat) (cur : PyStr) (idx : Nat) (s : PyStr) :
    Option ChunkRec × PyStr × Nat :=
  let sent := procSeg s
  if mc < cur.length + sent.length + 1 ∧ cur ≠ [] then
    (some ⟨pyStrip cur, pn, pn, idx⟩,
     (if ov < cur.length then pySliceNegFrom cur ov else cur) ++ ' ' :: sent,
     idx + 1)
  else
    (none, (if cur ≠ [] then cur ++ ' ' :: sent else sent), idx)

/-- The sentence loop of `chunk_text_smart` over a list of segments. -/
def smartLoop (mc ov pn : Nat) : List PyStr → PyStr → Nat → List ChunkRec × PyStr × Nat
  | [], cur, idx => ([], cur, idx)
  | s :: rest, cur, idx =>
    let st := smartStep mc ov pn cur idx s
    let r := smartLoop mc ov pn rest st.2.1 st.2.2
    match st.1 with
    | some c => (c :: r.1, r.2)
    | none => r

/-- Processing of one oversized page by `chunk_text_smart`
(pdf_utils.py lines 156-193), including the trailing-buffer emission. -/
def smartPage (mc ov pn : Nat) (pt : PyStr) (idx : Nat) : List ChunkRec × Nat :=
  let r := smartLoop mc ov pn (pySentences pt) [] idx
  if pyStrip r.2.1 ≠ [] then (r.1 ++ [⟨pyStrip r.2.1, pn, pn, r.2.2⟩], r.2.2 + 1)
  else (r.1, r.2.2)

/-- The page loop of `chunk_text_smart` (pdf_utils.py lines 140-193). -/
def chunkSmartPages (mc ov : Nat) : List PyStr → Nat → Nat → List ChunkRec × Nat
  | [], _, idx => ([], idx)
  | pt :: rest, pn, idx =>
    if pyStrip pt = [] then chunkSmartPages mc ov rest (pn + 1) idx
    else if pt.length ≤ mc then
      let r := chunkSmartPages mc ov rest (pn + 1) (idx + 1)
      (⟨pyStrip pt, pn, pn, idx⟩ :: r.1, r.2)
    else
      let p := smartPage mc ov pn pt idx
      let r := chunkSmartPages mc ov rest (pn + 1) p.2
      (p.1 ++ r.1, r.2)

/-- `pdf_utils.chunk_text_smart`: sentence-aware chunking with overlap. -/
def chunk_text_smart (pages : List PyStr) (mc ov : Nat) : List ChunkRec :=
  (chunkSmartPages mc ov pages 0 0).1

/-! Index-sequencing invariants for claim C6. -/

theorem chunkTextLoop_idx (pt : PyStr) (mc ov pn : Nat) :
    ∀ n start idx, pt.length - start ≤ n →
      (chunkTextLoop pt mc ov pn start idx).1.map (fun c => c.chunk_index) =
        List.range' idx (chunkTextLoop pt mc ov pn start idx).1.length ∧
      (chunkTextLoop pt mc ov pn start idx).2 =
        idx + (chunkTextLoop pt mc ov pn start idx).1.length := by
  intro n
  induction n with
  | zero =>
    intro start idx hle
    rw [chunkTextLoop]
    have hng : ¬ (0 < mc ∧ start < pt.length) := by omega
    simp [hng]
  | succ n ih =>
    intro start idx hle
    rw [chunkTextLoop]
    by_cases h : 0 < mc ∧ start < pt.length
    · have hnext : pt.length - nextWinStart start mc ov ≤ n := by
        have := lt_nextWinStart start mc ov h.1
        omega
      by_cases hstrip : pyStrip (pySlice pt start (start + mc)) = []
      · simpa [h, hstrip] using ih (nextWinStart start mc ov) idx hnext
      · have h2 := ih (nextWinStart start mc ov) (idx + 1) hnext
        refine ⟨?_, ?_⟩
        · simp [h, hstrip, h2.1, List.range'_succ]
        · simp only [h, hstrip, if_true, if_false, dif_pos, if_neg, not_false_iff]
          simp [h, hstrip]
          omega
    · simp [h]

theorem smartLoop_idx (mc ov pn : Nat) :
    ∀ (ss : List PyStr) (cur : PyStr) (idx : Nat),
      (smartLoop mc ov pn ss cur idx).1.map (fun c => c.chunk_index) =
        List.range' idx (smartLoop mc ov pn ss cur idx).1.length ∧
      (smartLoop mc ov pn ss cur idx).2.2 =
        idx + (smartLoop mc ov pn ss cur idx).1.length := by
  intro ss
  induction ss with
  | nil => intro cur idx; simp [smartLoop]
  | cons s rest ih =>
    intro cur idx
    rw [smartLoop]
    by_cases hc : mc < cur.length + (procSeg s).length + 1 ∧ cur ≠ []
    · have h2 := ih ((if ov < cur.length then pySliceNegFrom cur ov else cur) ++ ' ' :: procSeg s) (idx + 1)
      refine ⟨?_, ?_⟩
      · simp [smartStep, hc, h2.1, List.range'_succ]
      · simp [smartStep, hc, h2.2]
        omega
    · have h2 := ih (if cur = [] then procSeg s else cur ++ ' ' :: procSeg s) idx
      simpa [smartStep, hc] using h2

theorem smartPage_idx (mc ov pn : Nat) (pt : PyStr) (idx : Nat) :
    (smartPage mc ov pn pt idx).1.map (fun c => c.chunk_index) =
      List.range' idx (smartPage mc ov pn pt idx).1.length ∧
    (smartPage mc ov pn pt idx).2 = idx + (smartPage mc ov pn pt idx).1.length := by
  unfold smartPage
  have h := smartLoop_idx mc ov pn (pySentences pt) [] idx
  by_cases hs : pyStrip (smartLoop mc ov pn (pySentences pt) [] idx).2.1 = []
  · simpa [hs] using h
  · refine ⟨?_, ?_⟩
    · have hsnoc : ∀ a m : Nat, List.range' a (m + 1) = List.range' a m ++ [a + m] := by
        intro a m
        have hh := List.range'_append_1 a m 1
        rw [Nat.add_comm 1 m] at hh
        simpa [List.range'_succ] using hh.symm
      simp [hs, h.1, h.2, hsnoc]
    · simp [hs, h.2]
      omega

theorem chunkTextPages_idx (mc ov : Nat) :
    ∀ (pages : List PyStr) (pn idx : Nat),
      (chunkTextPages mc ov pages pn idx).1.map (fun c => c.chunk_index) =
        List.range' idx (chunkTextPages mc ov pages pn idx).1.length ∧
      (chunkTextPages mc ov pages pn idx).2 =
        idx + (chunkTextPages mc ov pages pn idx).1.length := by
  intro pages
  induction pages with
  | nil => intro pn idx; simp [chunkTextPages]
  | cons pt rest ih =>
    intro pn idx
    rw [chunkTextPages]
    by_cases hblank : pyStrip pt = []
    · simpa [hblank] using ih (pn + 1) idx
    · by_cases hsmall : pt.length ≤ mc
      · have h2 := ih (pn + 1) (idx + 1)
        refine ⟨?_, ?_⟩
        · simp [hblank, hsmall, h2.1, List.range'_succ]
        · simp [hblank, hsmall, h2.2]
          omega
      · have hp := chunkTextLoop_idx pt mc ov pn pt.length 0 idx (by omega)
        have h2 := ih (pn + 1) ((chunkTextLoop pt mc ov pn 0 idx).2)
        rw [hp.2] at h2
        refine ⟨?_, ?_⟩
        · simp [hblank, hsmall, hp.1, hp.2, h2.1]
          omega
        · simp [hblank, hsmall, hp.2, h2.2]
          omega

theorem chunkSmartPages_idx (mc ov : Nat) :
    ∀ (pages : List PyStr) (pn idx : Nat),
      (chunkSmartPages mc ov pages pn idx).1.map (fun c => c.chunk_index) =
        List.range' idx (chunkSmartPages mc ov pages pn idx).1.length ∧
      (chunkSmartPages mc ov pages pn idx).2 =
        idx + (chunkSmartPages mc ov pages pn idx).1.length := by
  intro pages
  induction pages with
  | nil => intro pn idx; simp [chunkSmartPages]
  | cons pt rest ih =>
    intro pn idx
    rw [chunkSmartPages]
    by_cases hblank : pyStrip pt = []
    · simpa [hblank] using ih (pn + 1) idx
    · by_cases hsmall : pt.length ≤ mc
      · have h2 := ih (pn + 1) (idx + 1)
        refine ⟨?_, ?_⟩
        · simp [hblank, hsmall, h2.1, List.range'_succ]
        · simp [hblank, hsmall, h2.2]
          omega
      · have hp := smartPage_idx mc ov pn pt idx
        have h2 := ih (pn + 1) ((smartPage mc ov pn pt idx).2)
        rw [hp.2] at h2
        refine ⟨?_, ?_⟩
        · simp [hblank, hsmall, hp.1, hp.2, h2.1]
          omega
        · simp [hblank, hsmall, hp.2, h2.2]
          omega

/-- Claim C6: for every pages input, every positive max_chars and every
non-negative overlap, the sequence of chunk_index values emitted by either
chunker is exactly 0, 1, …, n-1 — no gaps, no repeats, no per-page resets. -/
theorem claim6_chunk_index_sequence (pages : List PyStr) (mc ov : Nat) (_hmc : 0 < mc) :
    (chunk_text pages mc ov).map (fun c => c.chunk_index) =
      List.range (chunk_text pages mc ov).length ∧
    (chunk_text_smart pages mc ov).map (fun c => c.chunk_index) =
      List.range (chunk_text_smart pages mc ov).length := by
  refine ⟨?_, ?_⟩
  · have h := (chunkTextPages_idx mc ov pages 0 0).1
    simpa [chunk_text, List.range_eq_range'] using h
  · have h := (chunkSmartPages_idx mc ov pages 0 0).1
    simpa [chunk_text_smart, List.range_eq_range'] using h

/-- Witness for claim C6 at a concrete input. -/
theorem claim6_chunk_index_sequence_witness :
    (0 < 5) ∧
    (chunk_text [['a', 'b', 'c']] 5 2).map (fun c => c.chunk_index) =
      List.range (chunk_text [['a', 'b', 'c']] 5 2).length :=
  ⟨by decide, (claim6_chunk_index_sequence [['a', 'b', 'c']] 5 2 (by decide)).1⟩

/-! Page-attribution lemmas, for claim C7. -/

theorem chunkTextLoop_page (pt : PyStr) (mc ov pn : Nat) :
    ∀ n start idx, pt.length - start ≤ n →
      ∀ c ∈ (chunkTextLoop pt mc ov pn start idx).1,
        c.page_start = pn ∧ c.page_end = pn := by
  intro n
  induction n with
  | zero =>
    intro start idx hle
    rw [chunkTextLoop]
    have hng : ¬ (0 < mc ∧ start < pt.length) := by omega
    simp [hng]
  | succ n ih =>
    intro start idx hle
    rw [chunkTextLoop]
    by_cases h : 0 < mc ∧ start < pt.length
    · have hnext : pt.length - nextWinStart start mc ov ≤ n := by
        have := lt_nextWinStart start mc ov h.1
        omega
      by_cases hstrip : pyStrip (pySlice pt start (start + mc)) = []
      · simpa [h, hstrip] using ih (nextWinStart start mc ov) idx hnext
      · intro c hc
        simp only [h, hstrip, dif_pos, if_neg, not_false_iff] at hc
        simp at hc
        rcases hc with hc | hc
        · simp [hc]
        · exact ih (nextWinStart start mc ov) (idx + 1) hnext c hc
    · simp [h]

theorem smartLoop_page (mc ov pn : Nat) :
    ∀ (ss : List PyStr) (cur : PyStr) (idx : Nat),
      ∀ c ∈ (smartLoop mc ov pn ss cur idx).1, c.page_start = pn ∧ c.page_end = pn := by
  intro ss
  induction ss with
  | nil => intro cur idx; simp [smartLoop]
  | cons s rest ih =>
    intro cur idx
    rw [smartLoop]
    by_cases hc : mc < cur.length + (procSeg s).length + 1 ∧ cur ≠ []
    · intro c hcm
      simp [smartStep, hc] at hcm
      rcases hcm with hcm | hcm
      · simp [hcm]
      · exact ih _ _ c hcm
    · intro c hcm
      simp [smartStep, hc] at hcm
      exact ih _ _ c hcm

theorem smartPage_page (mc ov pn : Nat) (pt : PyStr) (idx : Nat) :
    ∀ c ∈ (smartPage mc ov pn pt idx).1, c.page_start = pn ∧ c.page_end = pn := by
  unfold smartPage
  by_cases hs : pyStrip (smartLoop mc ov pn (pySentences pt) [] idx).2.1 = []
  · simpa [hs] using smartLoop_page mc ov pn (pySentences pt) [] idx
  · intro c hc
    simp [hs] at hc
    rcases hc with hc | hc
    · exact smartLoop_page mc ov pn (pySentences pt) [] idx c hc
    · simp [hc]

theorem chunkTextPages_page_ge (mc ov : Nat) :
    ∀ (pages : List PyStr) (pn idx : Nat),
      ∀ c ∈ (chunkTextPages mc ov pages pn idx).1, pn ≤ c.page_start := by
  intro pages
  induction pages with
  | nil => intro pn idx; simp [chunkTextPages]
  | cons pt rest ih =>
    intro pn idx c hc
    rw [chunkTextPages] at hc
    by_cases hblank : pyStrip pt = []
    · simp [hblank] at hc
      have := ih (pn + 1) idx c hc
      omega
    · by_cases hsmall : pt.length ≤ mc
      · simp [hblank, hsmall] at hc
        rcases hc with hc | hc
        · simp [hc]
        · have := ih (pn + 1) (idx + 1) c hc
          omega
      · simp [hblank, hsmall] at hc
        rcases hc with hc | hc
        · exact (chunkTextLoop_page pt mc ov pn pt.length 0 idx (by omega) c hc).1.ge
        · have := ih (pn + 1) _ c hc
          omega

theorem chunkSmartPages_page_ge (mc ov : Nat) :
    ∀ (pages : List PyStr) (pn idx : Nat),
      ∀ c ∈ (chunkSmartPages mc ov pages pn idx).1, pn ≤ c.page_start := by
  intro pages
  induction pages with
  | nil => intro pn idx; simp [chunkSmartPages]
  | cons pt rest ih =>
    intro pn idx c hc
    rw [chunkSmartPages] at hc
    by_cases hblank : pyStrip pt = []
    · simp [hblank] at hc
      have := ih (pn + 1) idx c hc
      omega
    · by_cases hsmall : pt.length ≤ mc
      · simp [hblank, hsmall] at hc
        rcases hc with hc | hc
        · simp [hc]
        · have := ih (pn + 1) (idx + 1) c hc
          omega
      · simp [hblank, hsmall] at hc
        rcases hc with hc | hc
        · exact (smartPage_page mc ov pn pt idx c hc).1.ge
        · have := ih (pn + 1) _ c hc
          omega

theorem chunkTextPages_filter_single (mc ov : Nat) :
    ∀ (pages : List PyStr) (i : Nat) (p0 : PyStr) (pn idx : Nat),
      pages[i]? = some p0 → pyStrip p0 ≠ [] → p0.length ≤ mc →
      ∃ k, (chunkTextPages mc ov pages pn idx).1.filter
          (fun c => c.page_start == pn + i) = [⟨pyStrip p0, pn + i, pn + i, k⟩] := by
  intro pages
  induction pages with
  | nil => intro i p0 pn idx h; simp at h
  | cons pt rest ih =>
    intro i p0 pn idx hget hne hlen
    cases i with
    | zero =>
      simp at hget
      subst hget
      refine ⟨idx, ?_⟩
      simp only [Nat.add_zero]
      rw [chunkTextPages]
      have hrest : (chunkTextPages mc ov rest (pn + 1) (idx + 1)).1.filter
          (fun c => c.page_start == pn) = [] := by
        rw [List.filter_eq_nil_iff]
        intro c hc
        have := chunkTextPages_page_ge mc ov rest (pn + 1) (idx + 1) c hc
        simp only [beq_eq_false_iff_ne, ne_eq, beq_iff_eq]
        omega
      simp [hne, hlen, hrest]
    | succ i =>
      have hget2 : rest[i]? = some p0 := by simpa using hget
      have hni : pn + (i + 1) = pn + 1 + i := by omega
      rw [chunkTextPages, hni]
      by_cases hblank : pyStrip pt = []
      · simpa [hblank] using ih i p0 (pn + 1) idx hget2 hne hlen
      · by_cases hsmall : pt.length ≤ mc
        · obtain ⟨k, hk⟩ := ih i p0 (pn + 1) (idx + 1) hget2 hne hlen
          refine ⟨k, ?_⟩
          have hhd : (pn == pn + 1 + i) = false := by
            simp only [beq_eq_false_iff_ne, ne_eq]
            omega
          simp [hblank, hsmall, hhd, hk]
        · obtain ⟨k, hk⟩ := ih i p0 (pn + 1) ((chunkTextLoop pt mc ov pn 0 idx).2) hget2 hne hlen
          refine ⟨k, ?_⟩
          have hloop : (chunkTextLoop pt mc ov pn 0 idx).1.filter
              (fun c => c.page_start == pn + 1 + i) = [] := by
            rw [List.filter_eq_nil_iff]
            intro c hc
            have := (chunkTextLoop_page pt mc ov pn pt.length 0 idx (by omega) c hc).1
            simp only [beq_eq_false_iff_ne, ne_eq, beq_iff_eq]
            omega
          simp [hblank, hsmall, hloop, hk]

theorem chunkSmartPages_filter_single (mc ov : Nat) :
    ∀ (pages : List PyStr) (i : Nat) (p0 : PyStr) (pn idx : Nat),
      pages[i]? = some p0 → pyStrip p0 ≠ [] → p0.length ≤ mc →
      ∃ k, (chunkSmartPages mc ov pages pn idx).1.filter
          (fun c => c.page_start == pn + i) = [⟨pyStrip p0, pn + i, pn + i, k⟩] := by
  intro pages
  induction pages with
  | nil => intro i p0 pn idx h; simp at h
  | cons pt rest ih =>
    intro i p0 pn idx hget hne hlen
    cases i with
    | zero =>
      simp at hget
      subst hget
      refine ⟨idx, ?_⟩
      simp only [Nat.add_zero]
      rw [chunkSmartPages]
      have hrest : (chunkSmartPages mc ov rest (pn + 1) (idx + 1)).1.filter
          (fun c => c.page_start == pn) = [] := by
        rw [List.filter_eq_nil_iff]
        intro c hc
        have := chunkSmartPages_page_ge mc ov rest (pn + 1) (idx + 1) c hc
        simp only [beq_eq_false_iff_ne, ne_eq, beq_iff_eq]
        omega
      simp [hne, hlen, hrest]
    | succ i =>
      have hget2 : rest[i]? = some p0 := by simpa using hget
      have hni : pn + (i + 1) = pn + 1 + i := by omega
      rw [chunkSmartPages, hni]
      by_cases hblank : pyStrip pt = []
      · simpa [hblank] using ih i p0 (pn + 1) idx hget2 hne hlen
      · by_cases hsmall : pt.length ≤ mc
        · obtain ⟨k, hk⟩ := ih i p0 (pn + 1) (idx + 1) hget2 hne hlen
          refine ⟨k, ?_⟩
          have hhd : (pn == pn + 1 + i) = false := by
            simp only [beq_eq_false_iff_ne, ne_eq]
            omega
          simp [hblank, hsmall, hhd, hk]
        · obtain ⟨k, hk⟩ := ih i p0 (pn + 1) ((smartPage mc ov pn pt idx).2) hget2 hne hlen
          refine ⟨k, ?_⟩
          have hloop : (smartPage mc ov pn pt idx).1.filter
              (fun c => c.page_start == pn + 1 + i) = [] := by
            rw [List.filter_eq_nil_iff]
            intro c hc
            have := (smartPage_page mc ov pn pt idx c hc).1
            simp only [beq_eq_false_iff_ne, ne_eq, beq_iff_eq]
            omega
          simp [hblank, hsmall, hloop, hk]

/-- Claim C7, amended: for every page whose *trimmed* text is non-empty and
whose raw length is at most max_chars, chunking (either variant) yields
exactly one chunk for that page, with page_start = page_end = the page's
index, for every overlap value.  (A whitespace-only or empty page is skipped
and yields zero chunks, refuting the claim as stated.) -/
theorem claim7_small_page_single_chunk (pages : List PyStr) (mc ov i : Nat) (p0 : PyStr)
    (hget : pages[i]? = some p0) (hne : pyStrip p0 ≠ []) (hlen : p0.length ≤ mc) :
    (∃ k, (chunk_text pages mc ov).filter (fun c => c.page_start == i) =
        [⟨pyStrip p0, i, i, k⟩]) ∧
    (∃ k, (chunk_text_smart pages mc ov).filter (fun c => c.page_start == i) =
        [⟨pyStrip p0, i, i, k⟩]) := by
  constructor
  · have h := chunkTextPages_filter_single mc ov pages i p0 0 0 hget hne hlen
    simpa [chunk_text] using h
  · have h := chunkSmartPages_filter_single mc ov pages i p0 0 0 hget hne hlen
    simpa [chunk_text_smart] using h

/-- Counterexample to claim C7 as stated: a whitespace-only page has length
at most max_chars, yet both chunkers yield zero chunks for it, not one. -/
theorem claim7_small_page_single_chunk_cex :
    ([' '] : PyStr).length ≤ 5 ∧
    (chunk_text [[' ']] 5 0).filter (fun c => c.page_start == 0) = [] ∧
    (chunk_text_smart [[' ']] 5 0).filter (fun c => c.page_start == 0) = [] := by
  decide

/-- Witness for claim C7 (amended) at a concrete input. -/
theorem claim7_small_page_single_chunk_witness :
    (([['a', 'b']] : List PyStr)[0]? = some ['a', 'b'] ∧
      pyStrip ['a', 'b'] ≠ [] ∧ (['a', 'b'] : PyStr).length ≤ 5) ∧
    (∃ k, (chunk_text [['a', 'b']] 5 0).filter (fun c => c.page_start == 0) =
        [⟨pyStrip ['a', 'b'], 0, 0, k⟩]) :=
  ⟨⟨by decide, by decide, by decide⟩,
    (claim7_small_page_single_chunk [['a', 'b']] 5 0 0 ['a', 'b']
      (by decide) (by decide) (by decide)).1⟩

/-- The last n elements of a list (all of it when n exceeds the length). -/
def takeRightL (n : Nat) (l : PyStr) : PyStr := l.drop (l.length - n)

/-- Counterexample to claim C2 as stated: with overlap = 0 the close branch
fires (condition shown), but the new buffer keeps the ENTIRE just-closed
buffer as seed — Python's `current_chunk[-0:]` is the whole string — instead
of the claimed empty seed of min(0, len(buffer)) = 0 characters. -/
theorem claim2_overlap_seed_cex :
    (10 < (['a', 'a', 'a', 'a', '.'] : PyStr).length
        + (procSeg ['b', 'b', 'b', 'b']).length + 1 ∧
      (['a', 'a', 'a', 'a', '.'] : PyStr) ≠ []) ∧
    (smartStep 10 0 0 ['a', 'a', 'a', 'a', '.'] 0 ['b', 'b', 'b', 'b']).2.1 ≠
      takeRightL (min 0 (['a', 'a', 'a', 'a', '.'] : PyStr).length)
          ['a', 'a', 'a', 'a', '.'] ++ ' ' :: procSeg ['b', 'b', 'b', 'b'] := by
  decide

/-- Claim C2, amended: whenever the sentence loop closes a chunk because
appending the next segment would exceed max_chars, the new buffer is the seed
joined to the processed segment by a single space, where the seed is the last
min(overlap, len(buffer)) characters of the pre-trim buffer when overlap ≥ 1,
but the entire pre-trim buffer when overlap = 0 (Python `buffer[-0:]` returns
the whole string, so the overlap = 0 seed is never empty). -/
theorem claim2_overlap_seed (mc ov pn : Nat) (cur : PyStr) (idx : Nat) (s : PyStr)
    (hclose : mc < cur.length + (procSeg s).length + 1 ∧ cur ≠ []) :
    (smartStep mc ov pn cur idx s).2.1 =
      (if ov = 0 then cur else takeRightL (min ov cur.length) cur) ++ ' ' :: procSeg s ∧
    (smartStep mc ov pn cur idx s).1 = some ⟨pyStrip cur, pn, pn, idx⟩ := by
  have hseed : (if ov < cur.length then pySliceNegFrom cur ov else cur)
      = (if ov = 0 then cur else takeRightL (min ov cur.length) cur) := by
    by_cases h0 : ov = 0
    · subst h0
      have hlt : 0 < cur.length := List.length_pos.mpr hclose.2
      simp [hlt, pySliceNegFrom]
    · by_cases hlt : ov < cur.length
      · have hmin : min ov cur.length = ov := Nat.min_eq_left hlt.le
        simp [h0, hlt, pySliceNegFrom, takeRightL, hmin]
      · have hmin : min ov cur.length = cur.length := Nat.min_eq_right (by omega)
        simp [h0, hlt, takeRightL, hmin]
  constructor
  · simp [smartStep, hclose, hseed]
  · simp [smartStep, hclose]

/-- Witness for claim C2 (amended) at a concrete input. -/
theorem claim2_overlap_seed_witness :
    (3 < (['a', 'a', '.'] : PyStr).length + (procSeg ['b', 'b'] : PyStr).length + 1 ∧
      (['a', 'a', '.'] : PyStr) ≠ []) ∧
    (smartStep 3 2 0 ['a', 'a', '.'] 0 ['b', 'b']).2.1 =
      (if (2 : Nat) = 0 then ['a', 'a', '.'] else
        takeRightL (min 2 (['a', 'a', '.'] : PyStr).length) ['a', 'a', '.'])
        ++ ' ' :: procSeg ['b', 'b'] :=
  ⟨⟨by decide, by decide⟩,
    (claim2_overlap_seed 3 2 0 ['a', 'a', '.'] 0 ['b', 'b'] ⟨by decide, by decide⟩).1⟩

/-! Chunk length bounds, for claim C3. -/

theorem pyStrip_length_le (s : PyStr) : (pyStrip s).length ≤ s.length := by
  unfold pyStrip
  have h1 : ((s.dropWhile pyIsSpace).reverse.dropWhile pyIsSpace).length ≤
      (s.dropWhile pyIsSpace).reverse.length := (List.dropWhile_sublist _).length_le
  have h2 : (s.dropWhile pyIsSpace).length ≤ s.length := (List.dropWhile_sublist _).length_le
  simp only [List.length_reverse] at h1
  simpa using le_trans h1 h2

/-- The maximum of a list of naturals. -/
def natMax (l : List Nat) : Nat := l.foldr max 0

theorem le_natMax_of_mem {x : Nat} : ∀ {l : List Nat}, x ∈ l → x ≤ natMax l := by
  intro l
  induction l with
  | nil => intro h; simp at h
  | cons a t ih =>
    intro h
    rcases List.mem_cons.mp h with h | h
    · subst h
      simp only [natMax, List.foldr_cons]
      omega
    · have := ih h
      simp only [natMax, List.foldr_cons] at *
      omega

/-- Length of the longest processed sentence segment over all pages. -/
def maxSegLen (pages : List PyStr) : Nat :=
  natMax (pages.map fun pt => natMax ((pySentences pt).map fun s => (procSeg s).length))

theorem smartLoop_len_le (mc ov pn B L : Nat) (hov : 1 ≤ ov)
    (hmc : mc ≤ B) (hovL : ov + 1 + L ≤ B) :
    ∀ (ss : List PyStr) (cur : PyStr) (idx : Nat),
      (∀ s ∈ ss, (procSeg s).length ≤ L) → cur.length ≤ B →
      (∀ c ∈ (smartLoop mc ov pn ss cur idx).1, c.text.length ≤ B) ∧
      (smartLoop mc ov pn ss cur idx).2.1.length ≤ B := by
  intro ss
  induction ss with
  | nil =>
    intro cur idx hs hcur
    simpa [smartLoop] using hcur
  | cons s rest ih =>
    intro cur idx hs hcur
    rw [smartLoop]
    have hsL : (procSeg s).length ≤ L := hs s (by simp)
    have hrest : ∀ x ∈ rest, (procSeg x).length ≤ L := fun x hx => hs x (by simp [hx])
    by_cases hc : mc < cur.length + (procSeg s).length + 1 ∧ cur ≠ []
    · have hseed : ((if ov < cur.length then pySliceNegFrom cur ov else cur)).length ≤ ov := by
        by_cases hlt : ov < cur.length
        · have hne0 : ¬ ov = 0 := by omega
          simp [hlt, pySliceNegFrom, hne0]
          omega
        · simp [hlt]
          omega
      have hnew : ((if ov < cur.length then pySliceNegFrom cur ov else cur)
          ++ ' ' :: procSeg s).length ≤ B := by
        simp only [List.length_append, List.length_cons]
        omega
      have hih := ih ((if ov < cur.length then pySliceNegFrom cur ov else cur)
          ++ ' ' :: procSeg s) (idx + 1) hrest hnew
      refine ⟨?_, ?_⟩
      · intro c hcm
        simp [smartStep, hc] at hcm
        rcases hcm with hcm | hcm
        · have hsl := pyStrip_length_le cur
          simp [hcm]
          omega
        · exact hih.1 c hcm
      · simpa [smartStep, hc] using hih.2
    · have hnewlen : (if cur = [] then procSeg s else cur ++ ' ' :: procSeg s).length ≤ B := by
        by_cases hcur0 : cur = []
        · simp [hcur0]
          omega
        · have hle : cur.length + (procSeg s).length + 1 ≤ mc := by
            rcases not_and_or.mp hc with h | h
            · omega
            · exact absurd hcur0 (by simpa using h)
          simp [hcur0]
          omega
      have hih := ih (if cur = [] then procSeg s else cur ++ ' ' :: procSeg s) idx hrest hnewlen
      refine ⟨?_, ?_⟩
      · intro c hcm
        simp [smartStep, hc] at hcm
        exact hih.1 c hcm
      · simpa [smartStep, hc] using hih.2

theorem smartPage_len_le (mc ov pn B L : Nat) (hov : 1 ≤ ov)
    (hmc : mc ≤ B) (hovL : ov + 1 + L ≤ B) (pt : PyStr) (idx : Nat)
    (hsegs : ∀ s ∈ pySentences pt, (procSeg s).length ≤ L) :
    ∀ c ∈ (smartPage mc ov pn pt idx).1, c.text.length ≤ B := by
  unfold smartPage
  have h := smartLoop_len_le mc ov pn B L hov hmc hovL (pySentences pt) [] idx hsegs (by simp)
  by_cases hs : pyStrip (smartLoop mc ov pn (pySentences pt) [] idx).2.1 = []
  · simpa [hs] using h.1
  · intro c hc
    simp [hs] at hc
    rcases hc with hc | hc
    · exact h.1 c hc
    · have hsl := pyStrip_length_le (smartLoop mc ov pn (pySentences pt) [] idx).2.1
      simp [hc]
      omega

theorem chunkSmartPages_len_le (mc ov B L : Nat) (hov : 1 ≤ ov)
    (hmc : mc ≤ B) (hovL : ov + 1 + L ≤ B) :
    ∀ (pages : List PyStr),
      (∀ pt ∈ pages, ∀ s ∈ pySentences pt, (procSeg s).length ≤ L) →
      ∀ (pn idx : Nat), ∀ c ∈ (chunkSmartPages mc ov pages pn idx).1,
        c.text.length ≤ B := by
  intro pages
  induction pages with
  | nil => intro hsegs pn idx; simp [chunkSmartPages]
  | cons pt rest ih =>
    intro hsegs pn idx c hc
    have hrest : ∀ x ∈ rest, ∀ s ∈ pySentences x, (procSeg s).length ≤ L :=
      fun x hx => hsegs x (by simp [hx])
    rw [chunkSmartPages] at hc
    by_cases hblank : pyStrip pt = []
    · simp [hblank] at hc
      exact ih hrest (pn + 1) idx c hc
    · by_cases hsmall : pt.length ≤ mc
      · simp [hblank, hsmall] at hc
        rcases hc with hc | hc
        · have := pyStrip_length_le pt
          simp [hc]
          omega
        · exact ih hrest (pn + 1) (idx + 1) c hc
      · simp [hblank, hsmall] at hc
        rcases hc with hc | hc
        · exact smartPage_len_le mc ov pn B L hov hmc hovL pt idx
            (hsegs pt (by simp)) c hc
        · exact ih hrest (pn + 1) _ c hc

/-- Counterexample to claim C3 as stated: for a page that is one 20-character
run with no sentence break, max_chars = 10, overlap = 5 (so 0 ≤ overlap <
max_chars and max_chars > 0), the smart chunker emits a 21-character chunk. -/
theorem claim3_chunk_bounded_cex :
    ((0 : Nat) < 10 ∧ (5 : Nat) < 10) ∧
    ¬ (∀ c ∈ chunk_text_smart [List.replicate 20 'x'] 10 5, c.text.length ≤ 10) := by
  decide

/-- Claim C3, amended: chunks of the sentence-aware chunker are bounded not by
max_chars but by max(max_chars, overlap + 1 + L), where L is the length of the
longest processed sentence segment of the input; a single segment longer than
max_chars yields a chunk longer than max_chars.  (Requires overlap ≥ 1; with
overlap = 0 the Python `[-0:]` seeding can grow chunks without bound.) -/
theorem claim3_chunk_bounded (pages : List PyStr) (mc ov : Nat)
    (hov : 1 ≤ ov) (_hovmc : ov < mc) :
    ∀ c ∈ chunk_text_smart pages mc ov,
      c.text.length ≤ max mc (ov + 1 + maxSegLen pages) := by
  intro c hc
  refine chunkSmartPages_len_le mc ov (max mc (ov + 1 + maxSegLen pages))
    (maxSegLen pages) hov (le_max_left _ _) (le_max_right _ _) pages ?_ 0 0 c hc
  intro pt hpt s hs
  have h1 : (procSeg s).length ≤ natMax ((pySentences pt).map fun x => (procSeg x).length) :=
    le_natMax_of_mem (List.mem_map_of_mem _ hs)
  have h2 : natMax ((pySentences pt).map fun x => (procSeg x).length) ≤ maxSegLen pages :=
    le_natMax_of_mem (List.mem_map_of_mem _ hpt)
  exact le_trans h1 h2

/-- Witness for claim C3 (amended) at a concrete input. -/
theorem claim3_chunk_bounded_witness :
    ((1 : Nat) ≤ 5 ∧ (5 : Nat) < 10) ∧
    (∀ c ∈ chunk_text_smart [List.replicate 20 'x'] 10 5,
      c.text.length ≤ max 10 (5 + 1 + maxSegLen [List.replicate 20 'x'])) :=
  ⟨⟨by decide, by decide⟩,
    claim3_chunk_bounded [List.replicate 20 'x'] 10 5 (by decide) (by decide)⟩

/-! Fuel-indexed loop variants and degradation, for claim C9. -/

/-- Fuel-indexed variant of the `chunk_text` while loop: one fuel unit per
iteration, `none` when fuel runs out first.  Unlike `chunkTextLoop` it has no
max_chars guard, so it models the raw Python loop directly. -/
def chunkTextLoopF : Nat → PyStr → Nat → Nat → Nat → Nat → Nat → Option (List ChunkRec × Nat)
  | 0, _, _, _, _, _, _ => none
  | fuel + 1, pt, mc, ov, pn, start, idx =>
    if start < pt.length then
      let ct := pySlice pt start (start + mc)
      if pyStrip ct = [] then
        chunkTextLoopF fuel pt mc ov pn (nextWinStart start mc ov) idx
      else
        match chunkTextLoopF fuel pt mc ov pn (nextWinStart start mc ov) (idx + 1) with
        | none => none
        | some r => some (⟨pyStrip ct, pn, pn, idx⟩ :: r.1, r.2)
    else some ([], idx)

/-- Fuel-indexed variant of the sentence loop of `chunk_text_smart`. -/
def smartLoopF (mc ov pn : Nat) :
    Nat → List PyStr → PyStr → Nat → Option (List ChunkRec × PyStr × Nat)
  | _, [], cur, idx => some ([], cur, idx)
  | 0, _ :: _, _, _ => none
  | fuel + 1, s :: rest, cur, idx =>
    let st := smartStep mc ov pn cur idx s
    match smartLoopF mc ov pn fuel rest st.2.1 st.2.2 with
    | none => none
    | some r =>
      match st.1 with
      | some c => some (c :: r.1, r.2)
      | none => some r

theorem chunkTextLoopF_eq (mc ov : Nat) (hmc : 0 < mc) :
    ∀ (fuel : Nat) (pt : PyStr) (pn start idx : Nat), pt.length - start < fuel →
      chunkTextLoopF fuel pt mc ov pn start idx =
        some (chunkTextLoop pt mc ov pn start idx) := by
  intro fuel
  induction fuel with
  | zero => intro pt pn start idx hf; omega
  | succ fuel ih =>
    intro pt pn start idx hf
    rw [chunkTextLoopF, chunkTextLoop]
    by_cases hlt : start < pt.length
    · have hnext : pt.length - nextWinStart start mc ov < fuel := by
        have := lt_nextWinStart start mc ov hmc
        omega
      have hcond : 0 < mc ∧ start < pt.length := ⟨hmc, hlt⟩
      by_cases hstrip : pyStrip (pySlice pt start (start + mc)) = []
      · simp [hlt, hcond, hstrip, ih pt pn (nextWinStart start mc ov) idx hnext]
      · simp [hlt, hcond, hstrip, ih pt pn (nextWinStart start mc ov) (idx + 1) hnext]
    · have hcond : ¬ (0 < mc ∧ start < pt.length) := by tauto
      simp [hlt, hcond]

theorem smartLoopF_eq (mc ov pn : Nat) :
    ∀ (fuel : Nat) (ss : List PyStr) (cur : PyStr) (idx : Nat), ss.length < fuel →
      smartLoopF mc ov pn fuel ss cur idx = some (smartLoop mc ov pn ss cur idx) := by
  intro fuel
  induction fuel with
  | zero => intro ss cur idx hf; omega
  | succ fuel ih =>
    intro ss cur idx hf
    cases ss with
    | nil => simp [smartLoopF, smartLoop]
    | cons s rest =>
      rw [smartLoopF, smartLoop]
      have hr := ih rest (smartStep mc ov pn cur idx s).2.1
        (smartStep mc ov pn cur idx s).2.2 (by simp at hf ⊢; omega)
      rw [hr]
      cases hst : (smartStep mc ov pn cur idx s).1 <;> simp

theorem nextWinStart_degrade (st mc ov : Nat) (hmc : 0 < mc) (hov : mc ≤ ov) :
    nextWinStart st mc ov = nextWinStart st mc 0 := by
  unfold nextWinStart
  have h1 : ¬ mc ≤ 0 := by omega
  simp [hov, h1]

theorem chunkTextLoop_degrade (pt : PyStr) (mc ov pn : Nat) (hmc : 0 < mc) (hov : mc ≤ ov) :
    ∀ (n start idx : Nat), pt.length - start ≤ n →
      chunkTextLoop pt mc ov pn start idx = chunkTextLoop pt mc 0 pn start idx := by
  intro n
  induction n with
  | zero =>
    intro start idx hle
    have hng : ¬ (0 < mc ∧ start < pt.length) := by omega
    have h1 : chunkTextLoop pt mc ov pn start idx = ([], idx) := by
      rw [chunkTextLoop]
      simp [hng]
    have h2 : chunkTextLoop pt mc 0 pn start idx = ([], idx) := by
      rw [chunkTextLoop]
      simp [hng]
    rw [h1, h2]
  | succ n ih =>
    intro start idx hle
    by_cases h : 0 < mc ∧ start < pt.length
    · have hnext : pt.length - nextWinStart start mc ov ≤ n := by
        have := lt_nextWinStart start mc ov hmc
        omega
      have hnw : nextWinStart start mc 0 = nextWinStart start mc ov :=
        (nextWinStart_degrade start mc ov hmc hov).symm
      by_cases hstrip : pyStrip (pySlice pt start (start + mc)) = []
      · have h1 : chunkTextLoop pt mc ov pn start idx =
            chunkTextLoop pt mc ov pn (nextWinStart start mc ov) idx := by
          rw [chunkTextLoop]
          simp [h, hstrip]
        have h2 : chunkTextLoop pt mc 0 pn start idx =
            chunkTextLoop pt mc 0 pn (nextWinStart start mc ov) idx := by
          rw [chunkTextLoop]
          simp [h, hstrip, hnw]
        rw [h1, h2]
        exact ih (nextWinStart start mc ov) idx hnext
      · have h1 : chunkTextLoop pt mc ov pn start idx =
            (⟨pyStrip (pySlice pt start (start + mc)), pn, pn, idx⟩ ::
              (chunkTextLoop pt mc ov pn (nextWinStart start mc ov) (idx + 1)).1,
             (chunkTextLoop pt mc ov pn (nextWinStart start mc ov) (idx + 1)).2) := by
          rw [chunkTextLoop]
          simp [h, hstrip]
        have h2 : chunkTextLoop pt mc 0 pn start idx =
            (⟨pyStrip (pySlice pt start (start + mc)), pn, pn, idx⟩ ::
              (chunkTextLoop pt mc 0 pn (nextWinStart start mc ov) (idx + 1)).1,
             (chunkTextLoop pt mc 0 pn (nextWinStart start mc ov) (idx + 1)).2) := by
          rw [chunkTextLoop]
          simp [h, hstrip, hnw]
        rw [h1, h2, ih (nextWinStart start mc ov) (idx + 1) hnext]
    · have h1 : chunkTextLoop pt mc ov pn start idx = ([], idx) := by
        rw [chunkTextLoop]
        simp [h]
      have h2 : chunkTextLoop pt mc 0 pn start idx = ([], idx) := by
        rw [chunkTextLoop]
        simp [h]
      rw [h1, h2]

theorem chunk_text_degrade (pages : List PyStr) (mc ov : Nat)
    (hmc : 0 < mc) (hov : mc ≤ ov) :
    chunk_text pages mc ov = chunk_text pages mc 0 := by
  unfold chunk_text
  suffices h : ∀ (pn idx : Nat),
      chunkTextPages mc ov pages pn idx = chunkTextPages mc 0 pages pn idx by
    rw [h 0 0]
  induction pages with
  | nil => intro pn idx; simp [chunkTextPages]
  | cons pt rest ih =>
    intro pn idx
    rw [chunkTextPages, chunkTextPages]
    by_cases hblank : pyStrip pt = []
    · simp [hblank, ih (pn + 1) idx]
    · by_cases hsmall : pt.length ≤ mc
      · simp [hblank, hsmall, ih (pn + 1) (idx + 1)]
      · have hl := chunkTextLoop_degrade pt mc ov pn hmc hov pt.length 0 idx (by omega)
        simp [hblank, hsmall, hl, ih (pn + 1) _]

/-- Claim C9: for every positive max_chars and every overlap (including
overlap ≥ max_chars), both chunkers terminate on every finite input: the
fuel-indexed while loop of the fixed-window chunker completes (returns some)
whenever fuel exceeds the remaining characters, the fuel-indexed sentence loop
of the smart chunker completes whenever fuel exceeds the number of segments,
and when overlap ≥ max_chars the fixed-window chunker degrades to
non-overlapping windows — the same output as overlap = 0. -/
theorem claim9_termination (pages : List PyStr) (mc ov : Nat) (hmc : 0 < mc) :
    (∀ (pt : PyStr) (pn start idx fuel : Nat), pt.length - start < fuel →
      chunkTextLoopF fuel pt mc ov pn start idx =
        some (chunkTextLoop pt mc ov pn start idx)) ∧
    (∀ (pn fuel : Nat) (ss : List PyStr) (cur : PyStr) (idx : Nat), ss.length < fuel →
      smartLoopF mc ov pn fuel ss cur idx = some (smartLoop mc ov pn ss cur idx)) ∧
    (mc ≤ ov → chunk_text pages mc ov = chunk_text pages mc 0) :=
  ⟨fun pt pn start idx fuel hf => chunkTextLoopF_eq mc ov hmc fuel pt pn start idx hf,
   fun pn fuel ss cur idx hf => smartLoopF_eq mc ov pn fuel ss cur idx hf,
   fun hov => chunk_text_degrade pages mc ov hmc hov⟩

/-- Witness for claim C9 at a concrete input with overlap > max_chars. -/
theorem claim9_termination_witness :
    ((0 : Nat) < 2) ∧
    chunkTextLoopF 4 ['a', 'b', 'c'] 2 5 0 0 0 =
      some (chunkTextLoop ['a', 'b', 'c'] 2 5 0 0 0) ∧
    chunk_text [['a', 'b', 'c']] 2 5 = chunk_text [['a', 'b', 'c']] 2 0 := by
  refine ⟨by decide, ?_, ?_⟩
  · exact (claim9_termination [['a', 'b', 'c']] 2 5 (by decide)).1
      ['a', 'b', 'c'] 0 0 0 4 (by decide)
  · exact (claim9_termination [['a', 'b', 'c']] 2 5 (by decide)).2.2 (by decide)

/-! Model of the database layer (db.py) for claim C1.  A SQLAlchemy session is
a committed base state plus rows staged by add/flush; commit makes staged rows
durable, rollback discards them.  Failures are injected through an explicit
fault parameter standing for the exceptions the database driver may raise.
The upload_timestamp column is outside the model (no claim mentions it); id
sequences are modelled as per-state counters. -/

/-- One row of the documents table (db.py `Document`). -/
structure DocRow where
  id : Nat
  title : PyStr
  file_path : Option PyStr
  total_chunks : Nat
deriving DecidableEq, Repr

/-- One row of the chunks table (db.py `Chunk`).  The text column is named
`content`; `embedding` is the stored vector (reals modelled as rationals). -/
structure ChunkRow where
  id : Nat
  document_id : Nat
  chunk_index : Nat
  page_start : Option Nat
  page_end : Option Nat
  content : PyStr
  embedding : List ℚ
deriving DecidableEq, Repr

/-- The committed (durable) database state. -/
structure DBState where
  docs : List DocRow
  chunks : List ChunkRow
  nextDocId : Nat
  nextChunkId : Nat
deriving DecidableEq, Repr

/-- An open session: committed base plus staged, not-yet-committed rows. -/
structure DBSession where
  base : DBState
  stagedDocs : List DocRow
  stagedChunks : List ChunkRow
  nextDocId : Nat
  nextChunkId : Nat
deriving DecidableEq, Repr

/-- db.get_db(): a fresh session over the committed state. -/
def openSession (st : DBState) : DBSession :=
  ⟨st, [], [], st.nextDocId, st.nextChunkId⟩

/-- db.rollback() followed by db.close(): staged rows are discarded and the
committed state is untouched. -/
def rollbackTx (s : DBSession) : DBState := s.base

/-- db.commit(): staged rows become durable in one step. -/
def commitState (s : DBSession) : DBState :=
  ⟨s.base.docs ++ s.stagedDocs, s.base.chunks ++ s.stagedChunks, s.nextDocId, s.nextChunkId⟩

/-- The Python exceptions distinguished by the model. -/
inductive PyError
  | valueError
  | storageFailure
  | attributeError
  | dimensionMismatch
deriving DecidableEq, Repr

/-- Fault-injection points inside the ingestion transaction. -/
inductive Fault
  | ok
  | atCreateDocument
  | atChunk (i : Nat)
  | atCommit
deriving DecidableEq, Repr

/-- db.create_document (db.py lines 125-152): stage one document row; flush
assigns its id from the id sequence. -/
def create_document (fault : Fault) (s : DBSession) (title : PyStr)
    (file_path : Option PyStr) (total_chunks : Nat) :
    Except PyError (DocRow × DBSession) :=
  if fault = Fault.atCreateDocument then .error .storageFailure
  else
    let d : DocRow := ⟨s.nextDocId, title, file_path, total_chunks⟩
    .ok (d, { s with stagedDocs := s.stagedDocs ++ [d], nextDocId := s.nextDocId + 1 })

/-- The staging loop of db.create_chunks (db.py lines 212-227): one Chunk row
per (draft, vector) pair; the injected fault makes storing the i-th chunk
raise after the earlier ones were staged. -/
def stageChunks (fault : Fault) (document_id : Nat) :
    List (ChunkRec × List ℚ) → Nat → DBSession → Except PyError DBSession
  | [], _, s => .ok s
  | (cd, emb) :: rest, i, s =>
    if fault = Fault.atChunk i then .error .storageFailure
    else
      stageChunks fault document_id rest (i + 1)
        { s with
          stagedChunks := s.stagedChunks ++
            [⟨s.nextChunkId, document_id, cd.chunk_index, some cd.page_start,
              some cd.page_end, cd.text, emb⟩],
          nextChunkId := s.nextChunkId + 1 }

/-- db.create_chunks (db.py lines 187-229): raises ValueError when the chunk
and embedding counts disagree, otherwise stages every row. -/
def create_chunks (fault : Fault) (s : DBSession) (document_id : Nat)
    (chunks : List ChunkRec) (embeddings : List (List ℚ)) :
    Except PyError DBSession :=
  if chunks.length ≠ embeddings.length then .error .valueError
  else stageChunks fault document_id (chunks.zip embeddings) 0 s

/-- db.commit() with the injected commit fault. -/
def commitTx (fault : Fault) (s : DBSession) : Except PyError DBState :=
  if fault = Fault.atCommit then .error .storageFailure
  else .ok (commitState s)

/-- The success payload of db.ingest_document_with_chunks. -/
structure IngestOk where
  document_id : Nat
  num_chunks : Nat
deriving DecidableEq, Repr

/-- db.ingest_document_with_chunks (db.py lines 279-333): open a session, in a
try block create the document, create all chunks, and commit; on any exception
roll back and re-raise the exception (the Except value); finally close.  A
failure inside stageChunks leaves some rows staged; rollback discards them, so
passing the pre-call session to rollbackTx yields the same committed state. -/
def ingest_document_with_chunks (fault : Fault) (title : PyStr)
    (chunks : List ChunkRec) (embeddings : List (List ℚ))
    (file_path : Option PyStr) (st : DBState) :
    Except PyError IngestOk × DBState :=
  let db := openSession st
  match create_document fault db title file_path chunks.length with
  | .error e => (.error e, rollbackTx db)
  | .ok (doc, s1) =>
    match create_chunks fault s1 doc.id chunks embeddings with
    | .error e => (.error e, rollbackTx s1)
    | .ok s2 =>
      match commitTx fault s2 with
      | .error e => (.error e, rollbackTx s2)
      | .ok st2 => (.ok ⟨doc.id, chunks.length⟩, st2)

/-- The rows a successful create_chunks stages, as a pure function. -/
def chunkRowsFrom (document_id : Nat) :
    List (ChunkRec × List ℚ) → Nat → List ChunkRow
  | [], _ => []
  | (cd, emb) :: rest, cid =>
    ⟨cid, document_id, cd.chunk_index, some cd.page_start, some cd.page_end,
      cd.text, emb⟩ :: chunkRowsFrom document_id rest (cid + 1)

theorem stageChunks_ok_eq (fault : Fault) (document_id : Nat) :
    ∀ (l : List (ChunkRec × List ℚ)) (i : Nat) (s s' : DBSession),
      stageChunks fault document_id l i s = .ok s' →
      s'.base = s.base ∧ s'.stagedDocs = s.stagedDocs ∧
      s'.stagedChunks = s.stagedChunks ++ chunkRowsFrom document_id l s.nextChunkId ∧
      s'.nextDocId = s.nextDocId := by
  intro l
  induction l with
  | nil =>
    intro i s s' h
    simp [stageChunks] at h
    simp [← h, chunkRowsFrom]
  | cons p rest ih =>
    obtain ⟨cd, emb⟩ := p
    intro i s s' h
    rw [stageChunks] at h
    by_cases hf : fault = Fault.atChunk i
    · simp [hf] at h
    · simp only [hf, if_neg, not_false_iff, if_false] at h
      have := ih (i + 1) _ s' h
      simp only [chunkRowsFrom] at *
      refine ⟨this.1, this.2.1, ?_, this.2.2.2⟩
      rw [this.2.2.1]
      simp

/-- Claim C1: ingestion is atomic.  If any step after the transaction begins
(document creation, any chunk creation, or the commit) raises, the transaction
is rolled back and the exception re-raised — the committed state afterwards is
exactly the pre-call state, so no Document and no Chunk of the attempt is
persisted.  On success the new Document and all its Chunk rows are persisted
together by the single commit. -/
theorem claim1_ingest_atomic (fault : Fault) (title : PyStr) (chunks : List ChunkRec)
    (embeddings : List (List ℚ)) (file_path : Option PyStr) (st : DBState) :
    (∀ e st', ingest_document_with_chunks fault title chunks embeddings file_path st =
        (.error e, st') → st' = st) ∧
    (∀ r st', ingest_document_with_chunks fault title chunks embeddings file_path st =
        (.ok r, st') →
      chunks.length = embeddings.length ∧
      r.document_id = st.nextDocId ∧ r.num_chunks = chunks.length ∧
      st'.docs = st.docs ++ [⟨st.nextDocId, title, file_path, chunks.length⟩] ∧
      st'.chunks = st.chunks ++
        chunkRowsFrom st.nextDocId (chunks.zip embeddings) st.nextChunkId) := by
  unfold ingest_document_with_chunks
  by_cases h1 : fault = Fault.atCreateDocument
  · constructor
    · intro e st' heq
      simp [create_document, h1, rollbackTx, openSession] at heq
      exact heq.2.symm
    · intro r st' heq
      simp [create_document, h1] at heq
  · by_cases hlen : chunks.length = embeddings.length
    · have hlen2 : ¬ (chunks.length ≠ embeddings.length) := by simp [hlen]
      cases hsc : stageChunks fault st.nextDocId (chunks.zip embeddings) 0
        { base := st, stagedDocs := [⟨st.nextDocId, title, file_path, chunks.length⟩],
          stagedChunks := [], nextDocId := st.nextDocId + 1,
          nextChunkId := st.nextChunkId } with
      | error e0 =>
        constructor
        · intro e st' heq
          simp [create_document, h1, create_chunks, hlen2, openSession, hsc,
            rollbackTx] at heq
          exact heq.2.symm
        · intro r st' heq
          simp [create_document, h1, create_chunks, hlen2, openSession, hsc] at heq
      | ok s2 =>
        have hok := stageChunks_ok_eq fault st.nextDocId (chunks.zip embeddings) 0 _ s2 hsc
        by_cases h3 : fault = Fault.atCommit
        · subst h3
          constructor
          · intro e st' heq
            simp [create_document, create_chunks, hlen2, openSession, hsc,
              commitTx, rollbackTx] at heq
            rw [← heq.2, hok.1]
          · intro r st' heq
            simp [create_document, create_chunks, hlen2, openSession, hsc,
              commitTx] at heq
        · constructor
          · intro e st' heq
            simp [create_document, h1, create_chunks, hlen2, openSession, hsc,
              commitTx, h3] at heq
          · intro r st' heq
            simp [create_document, h1, create_chunks, hlen2, openSession, hsc,
              commitTx, h3, commitState] at heq
            refine ⟨hlen, ?_, ?_, ?_, ?_⟩
            · rw [← heq.1]
            · rw [← heq.1]
            · rw [← heq.2]
              simp [hok.1, hok.2.1]
            · rw [← heq.2]
              simp [hok.1, hok.2.2.1]
    · constructor
      · intro e st' heq
        simp [create_document, h1, create_chunks, hlen, openSession, rollbackTx] at heq
        exact heq.2.symm
      · intro r st' heq
        simp [create_document, h1, create_chunks, hlen, openSession] at heq

/-- Witness for claim C1: a commit-fault attempt leaves the committed state
unchanged, and a fault-free attempt persists the document together with its
chunk rows. -/
theorem claim1_ingest_atomic_witness :
    (ingest_document_with_chunks Fault.atCommit ['t'] [⟨['x'], 0, 0, 0⟩]
        [[(1 : ℚ)]] none ⟨[], [], 1, 1⟩).2 = (⟨[], [], 1, 1⟩ : DBState) ∧
    (ingest_document_with_chunks Fault.ok ['t'] [⟨['x'], 0, 0, 0⟩]
        [[(1 : ℚ)]] none ⟨[], [], 1, 1⟩).2.docs = [] ++ [⟨1, ['t'], none, 1⟩] := by
  constructor
  · exact (claim1_ingest_atomic Fault.atCommit ['t'] [⟨['x'], 0, 0, 0⟩] [[(1 : ℚ)]]
      none ⟨[], [], 1, 1⟩).1 PyError.storageFailure _ rfl
  · exact ((claim1_ingest_atomic Fault.ok ['t'] [⟨['x'], 0, 0, 0⟩] [[(1 : ℚ)]]
      none ⟨[], [], 1, 1⟩).2 ⟨1, 1⟩ _ rfl).2.2.2.1

/-! Model of the embedding adapter (embeddings.py) for claim C4.  The
sentence-transformers model is abstracted as a function from texts to
vectors; the adapter code around it is embedded as written. -/

/-- model_config.EMBEDDING_DIMENSION. -/
def EMBEDDING_DIMENSION : Nat := 384

/-- embeddings.generate_embeddings_batch (embeddings.py lines 51-73): the
model's batch output is returned unchanged — no shape validation happens
(batch_size only controls internal batching, not the result). -/
def generate_embeddings_batch (embedder : List PyStr → List (List ℚ))
    (texts : List PyStr) : List (List ℚ) :=
  embedder texts

/-- embeddings.encode_chunks (embeddings.py lines 76-96): an empty chunk list
short-circuits to an empty array; otherwise the texts are embedded in batch
and the output returned as-is. -/
def encode_chunks (embedder : List PyStr → List (List ℚ))
    (chunks : List ChunkRec) : List (List ℚ) :=
  if chunks.isEmpty then []
  else generate_embeddings_batch embedder (chunks.map (fun c => c.text))

/-- embeddings.verify_embedding_dimension (embeddings.py lines 99-120),
modelled on the numpy array's shape: a 1-D array is checked on shape[0],
anything else on shape[1].  On a mismatch it only RETURNS False — it raises
nothing — and no function in the encode path calls it. -/
def verify_embedding_dimension (shape : List Nat) : Bool :=
  let actual_dim := if shape.length = 1 then shape.headD 0 else shape.getD 1 0
  if actual_dim ≠ EMBEDDING_DIMENSION then false else true

/-- Modelled from the spec (§4.2, the behaviour claim C4 asserts): the batch
embedding operation fails with DimensionMismatch whenever any produced
vector's length differs from D = 384.  This definition follows the spec's
words and exists only to be compared with the code's `encode_chunks`. -/
def encode_chunks_claimed (embedder : List PyStr → List (List ℚ))
    (chunks : List ChunkRec) : Except PyError (List (List ℚ)) :=
  if chunks.isEmpty then .ok []
  else
    let out := embedder (chunks.map (fun c => c.text))
    if out.all (fun v => v.length == EMBEDDING_DIMENSION) then .ok out
    else .error .dimensionMismatch

/-- Counterexample to claim C4 as stated: an embedder producing one 3-vector
(length ≠ 384) should make the operation raise DimensionMismatch per the
claim, but `encode_chunks` returns the malformed vector unchanged. -/
theorem claim4_dimension_check_cex :
    encode_chunks (fun _ => [[(0 : ℚ), 0, 0]]) [⟨['x'], 0, 0, 0⟩] =
      [[(0 : ℚ), 0, 0]] ∧
    encode_chunks_claimed (fun _ => [[(0 : ℚ), 0, 0]]) [⟨['x'], 0, 0, 0⟩] =
      .error PyError.dimensionMismatch := by
  constructor <;> rfl

/-- Claim C4, amended: the batch embedding path performs no dimension
validation at all — encode_chunks returns the embedder's output unchanged for
every non-empty input — and the only dimension logic in the module,
verify_embedding_dimension, returns False (without raising) exactly when the
shape's dimension differs from 384, and is not invoked by encode_chunks or
generate_embeddings_batch. -/
theorem claim4_dimension_check (embedder : List PyStr → List (List ℚ))
    (chunks : List ChunkRec) (hne : ¬ chunks.isEmpty) (shape : List Nat) :
    encode_chunks embedder chunks = embedder (chunks.map (fun c => c.text)) ∧
    (verify_embedding_dimension shape = true ↔
      (if shape.length = 1 then shape.headD 0 else shape.getD 1 0) =
        EMBEDDING_DIMENSION) := by
  constructor
  · simp [encode_chunks, generate_embeddings_batch, hne]
  · unfold verify_embedding_dimension
    split <;> simp_all

/-- Witness for claim C4 (amended) at a concrete input. -/
theorem claim4_dimension_check_witness :
    (¬ ([⟨['x'], 0, 0, 0⟩] : List ChunkRec).isEmpty) ∧
    encode_chunks (fun _ => [[(1 : ℚ)]]) [⟨['x'], 0, 0, 0⟩] =
      (fun _ => [[(1 : ℚ)]]) (([⟨['x'], 0, 0, 0⟩] : List ChunkRec).map (fun c => c.text)) :=
  ⟨by decide,
    (claim4_dimension_check (fun _ => [[(1 : ℚ)]]) [⟨['x'], 0, 0, 0⟩]
      (by decide) []).1⟩

/-! Model of the query path (db.search_similar_chunks and the post-embedding
part of main.query_documents) for claims C5, C8 and C10. -/

/-- Squared L2 distance over rationals.  pgvector's l2_distance is the square
root of this; the square root is monotone, so the ordering — the only thing
the claims depend on — is identical. -/
def l2dist2 (u v : List ℚ) : ℚ :=
  ((u.zip v).map (fun p => (p.1 - p.2) ^ 2)).sum

/-- db.search_similar_chunks (db.py lines 246-272): every chunk row paired
with its distance to the query embedding, ordered ascending by distance and
limited.  mergeSort is stable, matching the store's unspecified tie-break by
scan order. -/
def search_similar_chunks (rows : List ChunkRow) (query_embedding : List ℚ)
    (limit : Nat) : List (ChunkRow × ℚ) :=
  ((rows.map (fun c => (c, l2dist2 c.embedding query_embedding))).mergeSort
    (fun a b => a.2 ≤ b.2)).take limit

/-- The truthiness test Python applies to `request.document_id` on main.py
line 226: both None and 0 are falsy. -/
def pyTruthyOptNat : Option Nat → Bool
  | none => false
  | some n => n != 0

/-- The pydantic response row of main.py (ChunkResult). -/
structure ChunkResult where
  chunk_id : Nat
  document_id : Nat
  chunk_index : Nat
  page_start : Option Nat
  page_end : Option Nat
  text : PyStr
  distance : ℚ
deriving DecidableEq, Repr

/-- The nearest-neighbour fetch of main.py line 223: the store is asked for
`top_k * 2` rows whether or not a document filter will be applied.  The
search parameter abstracts the bound store primitive
`search_similar_chunks db query_embedding`. -/
def queryCandidates (search : Nat → List (ChunkRow × ℚ)) (top_k : Nat) :
    List (ChunkRow × ℚ) :=
  search (top_k * 2)

/-- The document filtering / truncation step of main.py lines 226-231. -/
def queryFiltered (top_k : Nat) (document_id : Option Nat)
    (results : List (ChunkRow × ℚ)) : List (ChunkRow × ℚ) :=
  if pyTruthyOptNat document_id then
    (results.filter (fun p => p.1.document_id == document_id.getD 0)).take top_k
  else results.take top_k

/-- The response assembly of main.py lines 234-245.  The comprehension reads
`chunk.text`, but the Chunk ORM row (db.py line 63) names its text column
`content`, and SQLAlchemy declarative models expose no other attribute, so
constructing any response row raises AttributeError.  (The repository's own
test_phase3.py queries the `content` column; test_query.py shares main.py's
`chunk.text` slip.)  The attribute access is embedded faithfully as the
raised error. -/
def toChunkResult (_p : ChunkRow × ℚ) : Except PyError ChunkResult :=
  .error .attributeError

/-- The response row main.py evidently intends, with the text drawn from the
row's `content` column — what the comprehension would produce were the
attribute name right. -/
def toChunkResultIntended (p : ChunkRow × ℚ) : ChunkResult :=
  ⟨p.1.id, p.1.document_id, p.1.chunk_index, p.1.page_start, p.1.page_end,
    p.1.content, p.2⟩

/-- main.query_documents (main.py lines 201-260) after the query-embedding
step: fetch 2×top_k candidates, filter/truncate, convert to response rows. -/
def query_documents (search : Nat → List (ChunkRow × ℚ)) (top_k : Nat)
    (document_id : Option Nat) : Except PyError (List ChunkResult) :=
  (queryFiltered top_k document_id (queryCandidates search top_k)).mapM toChunkResult

/-- Counterexample to claim C5 as stated: with top_k = 1 and document_id
absent the orchestrator still requests 2 rows from the store, not exactly
top_k = 1 — observable through a store stub returning as many rows as were
requested. -/
theorem claim5_overfetch_cex :
    queryCandidates
        (fun n => List.replicate n (⟨0, 1, 0, none, none, [], []⟩, (0 : ℚ))) 1 ≠
      List.replicate 1 (⟨0, 1, 0, none, none, [], []⟩, (0 : ℚ)) := by
  decide

/-- Claim C5, amended: the query orchestrator always requests 2 × top_k
nearest neighbours from the store — with and without a document filter; when
document_id is absent the surplus candidates are simply discarded by the
final truncation to top_k. -/
theorem claim5_overfetch (search : Nat → List (ChunkRow × ℚ)) (top_k : Nat) :
    queryCandidates search top_k = search (2 * top_k) ∧
    queryFiltered top_k none (queryCandidates search top_k) =
      (search (2 * top_k)).take top_k := by
  constructor
  · simp [queryCandidates, Nat.mul_comm]
  · simp [queryFiltered, queryCandidates, pyTruthyOptNat, Nat.mul_comm]

/-- Claim C8 (code bug witness): with a store returning a single chunk of the
requested document, the filter stage does produce that chunk (only matching
document, store order, within top_k), but the response conversion raises
AttributeError — main.py reads chunk.text while the ORM column is content —
so the endpoint errors out instead of returning the filtered results. -/
theorem claim8_filtered_query_bug :
    queryFiltered 5 (some 7)
        (queryCandidates
          (fun _ => [(⟨5, 7, 0, some 0, some 0, ['x'], [1]⟩, (0 : ℚ))]) 5) =
      [(⟨5, 7, 0, some 0, some 0, ['x'], [1]⟩, (0 : ℚ))] ∧
    query_documents
        (fun _ => [(⟨5, 7, 0, some 0, some 0, ['x'], [1]⟩, (0 : ℚ))]) 5 (some 7) =
      .error PyError.attributeError := by
  constructor <;> rfl

/-- Claim C10: document_id = 0 is falsy in Python, so a query with
document_id 0 takes the no-filter branch and behaves exactly like a query
with document_id absent — candidates truncated to top_k, chunks of any
document eligible — rather than filtering to document 0. -/
theorem claim10_zero_docid_unfiltered (search : Nat → List (ChunkRow × ℚ))
    (top_k : Nat) :
    query_documents search top_k (some 0) = query_documents search top_k none ∧
    (∀ results : List (ChunkRow × ℚ),
      queryFiltered top_k (some 0) results = results.take top_k) :=
  ⟨rfl, fun _ => rfl⟩

/-- Supporting fact for the C8 analysis: the filtering stage itself behaves as
the spec intends — with a non-zero document filter it keeps only chunks of
that document, preserves the ascending-distance order received from the store
(it is a sublist, never re-sorted), and returns at most top_k rows.  The
AttributeError recorded for claim C8 happens only afterwards, in the response
assembly. -/
theorem queryFiltered_matching_sorted (top_k d : Nat) (hd : d ≠ 0)
    (results : List (ChunkRow × ℚ))
    (hsorted : results.Pairwise (fun a b => a.2 ≤ b.2)) :
    (∀ p ∈ queryFiltered top_k (some d) results, p.1.document_id = d) ∧
    (queryFiltered top_k (some d) results).Pairwise (fun a b => a.2 ≤ b.2) ∧
    (queryFiltered top_k (some d) results).length ≤ top_k ∧
    (queryFiltered top_k (some d) results).Sublist results := by
  have htr : pyTruthyOptNat (some d) = true := by
    simp [pyTruthyOptNat, hd]
  have hsub : (queryFiltered top_k (some d) results).Sublist results := by
    unfold queryFiltered
    rw [htr]
    simp only [if_true]
    exact ((List.take_sublist _ _).trans (List.filter_sublist _))
  refine ⟨?_, ?_, ?_, hsub⟩
  · intro p hp
    unfold queryFiltered at hp
    rw [htr] at hp
    simp only [if_true] at hp
    have := List.mem_filter.mp (List.mem_of_mem_take hp)
    simpa using this.2
  · exact hsorted.sublist hsub
  · unfold queryFiltered
    rw [htr]
    simp
